import Mathlib

/-!
# License updater and controller suite-test scaffold

A shallow embedding of `pkg/license/license.go` (the `license` command: `RunE`,
`updateFiles`, `getSourceFiles`, `stripLicense`) and of
`SuiteTest.SetTemplateDefaults` from
`internal/plugins/workload/v1/scaffolds/templates/controller/controller_suitetest.go`.

Go strings are byte sequences.  They are modelled as lists whose elements stand for
single bytes; every operation the program applies to them (length, slicing, equality,
prefix test, line scanning, concatenation) works byte by byte.  The filesystem is an
explicit state that is threaded through the operations, together with a record of which
operations fail and a trace of the operations performed.
-/

set_option autoImplicit false

namespace OperatorBuilder

/-! ## Strings -/

/-- A Go string: a sequence of bytes. -/
abbrev GoString := List Char

/-- A file path, as the program passes it to the `os` package. -/
abbrev Path := GoString

/-- Go `error` values that the program can return: `errors.New msg`, or the `*PathError`
of a failed file operation `op` on `path`. -/
inductive GoError where
  | new (msg : GoString)
  | pathError (op : GoString) (path : Path)
  deriving DecidableEq, Repr

/-- The constant `sourceFileExt` of license.go. -/
def sourceFileExt : GoString := "go".toList

/-- The constant `existingLic` of license.go: the two-line raw string literal. -/
def existingLic : GoString := "/*\nCopyright".toList

/-- Go `strings.HasPrefix s p`. -/
def stringsHasPrefix (s p : GoString) : Bool := p.isPrefixOf s

/-! ## `bufio.Scanner` with the default split function `bufio.ScanLines` -/

/-- The constant `bufio.MaxScanTokenSize`: the size the scanner's buffer may grow to. -/
def maxScanTokenSize : Nat := 64 * 1024

/-- The input cut at each newline byte, the newline itself removed.  A last line without
a newline is a line; a newline at the very end does not start a further, empty line
(`ScanLines` returns no token for empty data at end of input). -/
def splitLines : GoString → List GoString
  | [] => []
  | c :: rest =>
    if c = '\n' then [] :: splitLines rest
    else
      match splitLines rest with
      | [] => [[c]]
      | l :: ls => (c :: l) :: ls

/-- The helper `dropCR` of package bufio: drops one carriage return at the end. -/
def dropCR (data : GoString) : GoString :=
  if data.getLast? = some '\r' then data.dropLast else data

/-- The values of `scanner.Text()` over the successive calls of `scanner.Scan()` that
return true, for a scanner over `strings.NewReader data`.  A line with its newline has
to fit the buffer of `maxScanTokenSize` bytes, and a last line without newline has to
leave one byte free for the read that reports the end of the input; so at the first
line of `maxScanTokenSize` bytes or more `Scan` sets `ErrTooLong` and returns false, and
the lines from there on are never delivered. -/
def scanLines (data : GoString) : List GoString :=
  ((splitLines data).takeWhile (fun l => decide (l.length < maxScanTokenSize))).map dropCR

/-- Whether the scan of `data` ends with `scanner.Err() = bufio.ErrTooLong`. -/
def scanTooLong (data : GoString) : Bool :=
  (splitLines data).any (fun l => decide (maxScanTokenSize ≤ l.length))

/-! ## `stripLicense` -/

/-- The local variables of the scanning loop of `stripLicense`. -/
structure StripState where
  sourceFileContentOut : GoString
  endOfLicenseFound : Bool
  deriving DecidableEq, Repr

/-- One iteration of `for scanner.Scan() { ... }` in `stripLicense`, on the line `text`. -/
def stripStep (st : StripState) (text : GoString) : StripState :=
  if st.endOfLicenseFound then
    { st with sourceFileContentOut := st.sourceFileContentOut ++ "\n".toList ++ text }
  else if text = "*/".toList then
    { st with endOfLicenseFound := true }
  else st

/-- The function `stripLicense` of license.go.  The result is the pair of the returned
string and the returned error (`none` for `nil`); `scanner.Err()` is never consulted. -/
def stripLicense (sourceFileContent : GoString) : GoString × Option GoError :=
  if stringsHasPrefix sourceFileContent existingLic then
    let st := (scanLines sourceFileContent).foldl stripStep
      { sourceFileContentOut := [], endOfLicenseFound := false }
    (st.sourceFileContentOut, none)
  else
    (sourceFileContent, none)

/-! ## Lines as the specification speaks of them -/

/-- The lines of a text: it is cut at each newline, and a carriage return right before
the newline (or at the end of a last line without newline) belongs to the line ending.
This is the sense in which the line scanner of the program reads a line. -/
def textLines (c : GoString) : List GoString := (splitLines c).map dropCR

/-- The lines that come strictly after the first line equal to the closing token. -/
def afterClosing (ls : List GoString) : List GoString :=
  (ls.dropWhile (fun l => decide (l ≠ "*/".toList))).tail

/-- Each line preceded by a newline, all concatenated in order. -/
def joinWithLeadingNewline (ls : List GoString) : GoString :=
  ls.flatMap (fun l => '\n' :: l)


/-! ## The filesystem -/

/-- What a path names: a regular file with its content, or a directory. -/
inductive Node where
  | file (content : GoString)
  | dir
  deriving DecidableEq, Repr

/-- The file operations the program performs, as recorded in the trace. -/
inductive Op where
  | create (name : Path)
  | openTrunc (name : Path)
  | readFile (name : Path)
  | writeString (name : Path) (s : GoString)
  | walk (root : Path)
  deriving DecidableEq, Repr

/-- Which operations fail for reasons outside the tree (permissions, a full disk, a
broken device), by kind of operation and path. -/
structure Faults where
  create : Path → Bool
  openFile : Path → Bool
  readFile : Path → Bool
  writeString : Path → Bool
  lstat : Path → Bool

/-- The state of the filesystem as the process sees it.  `tree` holds what lies below
the current directory, keyed by the path relative to it, in the order in which
`filepath.Walk` visits it; `outside` holds the files that can be read through other
paths; `trace` lists the operations performed so far, oldest first. -/
structure FS where
  tree : List (Path × Node)
  outside : List (Path × GoString)
  faults : Faults
  trace : List Op

/-- No operation fails for outside reasons. -/
def noFaults : Faults :=
  { create := fun _ => false, openFile := fun _ => false, readFile := fun _ => false,
    writeString := fun _ => false, lstat := fun _ => false }

/-- What `name` refers to in the tree, if anything. -/
def FS.node (fs : FS) (name : Path) : Option Node := fs.tree.lookup name

/-- The tree with `name` now referring to `n`: the entry is replaced where it stands, or
added at the end when the path is new. -/
def setNode (name : Path) (n : Node) : List (Path × Node) → List (Path × Node)
  | [] => [(name, n)]
  | (q, m) :: rest =>
    if q = name then (q, n) :: rest else (q, m) :: setNode name n rest

/-- The state after one more operation has been recorded. -/
def FS.log (fs : FS) (op : Op) : FS := { fs with trace := fs.trace ++ [op] }

/-- Go `os.Create(name)`, that is `OpenFile(name, O_RDWR|O_CREATE|O_TRUNC, 0666)`: the
file exists and is empty afterwards.  It fails on a directory or on an outside fault. -/
def osCreate (fs : FS) (name : Path) : FS × Option GoError :=
  let fs1 := fs.log (Op.create name)
  if fs.faults.create name then (fs1, some (GoError.pathError "open".toList name))
  else
    match fs.node name with
    | some Node.dir => (fs1, some (GoError.pathError "open".toList name))
    | _ => ({ fs1 with tree := setNode name (Node.file []) fs1.tree }, none)

/-- Go `os.OpenFile(name, os.O_RDWR|os.O_CREATE|os.O_TRUNC, 0755)`: the file exists and
is empty afterwards.  It fails on a directory or on an outside fault. -/
def osOpenFile (fs : FS) (name : Path) : FS × Option GoError :=
  let fs1 := fs.log (Op.openTrunc name)
  if fs.faults.openFile name then (fs1, some (GoError.pathError "open".toList name))
  else
    match fs.node name with
    | some Node.dir => (fs1, some (GoError.pathError "open".toList name))
    | _ => ({ fs1 with tree := setNode name (Node.file []) fs1.tree }, none)

/-- Go `f.WriteString(s)` on a handle just opened on `name`, so at offset 0: the bytes of
`s` replace the first bytes of the file.  A failed write leaves the file as it is. -/
def fileWriteString (fs : FS) (name : Path) (s : GoString) : FS × Option GoError :=
  let fs1 := fs.log (Op.writeString name s)
  if fs.faults.writeString name then (fs1, some (GoError.pathError "write".toList name))
  else
    match fs.node name with
    | some (Node.file old) =>
      ({ fs1 with tree := setNode name (Node.file (s ++ old.drop s.length)) fs1.tree }, none)
    | _ => ({ fs1 with tree := setNode name (Node.file s) fs1.tree }, none)

/-- Go `ioutil.ReadFile(filename)`. -/
def ioutilReadFile (fs : FS) (filename : Path) : FS × Except GoError GoString :=
  let fs1 := fs.log (Op.readFile filename)
  if fs.faults.readFile filename then
    (fs1, Except.error (GoError.pathError "open".toList filename))
  else
    match fs.node filename with
    | some (Node.file content) => (fs1, Except.ok content)
    | some Node.dir => (fs1, Except.error (GoError.pathError "read".toList filename))
    | none =>
      match fs.outside.lookup filename with
      | some content => (fs1, Except.ok content)
      | none => (fs1, Except.error (GoError.pathError "open".toList filename))

/-- The last element of a path: what `info.Name()` returns for the entry at that path. -/
def baseName (path : Path) : GoString :=
  (path.reverse.takeWhile (fun c => decide (c ≠ '/'))).reverse

/-- The calls `filepath.Walk(".", fn)` makes to `fn`, in order: first the root, then
every entry of the tree.  Each call is given as the path and whether it carries a
non-nil `err` (the entry could not be examined or listed). -/
def walkCalls (fs : FS) : List (Path × Bool) :=
  (".".toList :: fs.tree.map Prod.fst).map (fun p => (p, fs.faults.lstat p))

/-! ## The license command -/

/-- The struct `License` of license.go. -/
structure License where
  projectLicense : GoString
  sourceFileLicense : GoString
  sourceFiles : List Path

/-- The function literal that `getSourceFiles` passes to `filepath.Walk`, applied to
`path`, to `info` with `info.Name() = name`, and to `err` (`hasErr` when not nil).  It
returns the receiver as updated and the error returned to `Walk`. -/
def walkFn (l : License) (path : Path) (name : GoString) (hasErr : Bool) :
    License × Option GoError :=
  if hasErr then (l, some (GoError.pathError "lstat".toList path))
  else
    if name.length > 4 then
      if name.drop (name.length - 3) = ".go".toList then
        ({ l with sourceFiles := l.sourceFiles ++ [path] }, none)
      else (l, none)
    else (l, none)

/-- The loop of `filepath.Walk` over its calls: it stops at the first call for which the
function returns an error, and returns that error. -/
def walkLoop (l : License) : List (Path × Bool) → License × Option GoError
  | [] => (l, none)
  | (path, hasErr) :: rest =>
    match walkFn l path (baseName path) hasErr with
    | (l1, some e) => (l1, some e)
    | (l1, none) => walkLoop l1 rest

/-- The method `getSourceFiles` of license.go.  The argument `fileExt` is not used by
the body, the result of `filepath.Walk` is dropped, and the returned error is nil. -/
def getSourceFiles (l : License) (_fileExt : GoString) (fs : FS) :
    License × FS × Option GoError :=
  ((walkLoop l (walkCalls fs)).1, fs.log (Op.walk ".".toList), none)

/-- The body of `for _, sourceFile := range l.sourceFiles` in `updateFiles`, for one
source file: `some e` stands for `return e`, `none` for reaching the end of the body.
The result of `f.WriteString` is dropped. -/
def rewriteSourceFile (l : License) (fs : FS) (sourceFile : Path) : FS × Option GoError :=
  match ioutilReadFile fs sourceFile with
  | (fs1, Except.error e) => (fs1, some e)
  | (fs1, Except.ok sourceFileContent) =>
    match stripLicense sourceFileContent with
    | (_, some e) => (fs1, some e)
    | (strippedContent, none) =>
      let licensedContent := l.sourceFileLicense ++ strippedContent
      match osOpenFile fs1 sourceFile with
      | (fs2, some e) => (fs2, some e)
      | (fs2, none) => ((fileWriteString fs2 sourceFile licensedContent).1, none)

/-- The loop `for _, sourceFile := range l.sourceFiles` of `updateFiles`. -/
def rewriteLoop (l : License) : List Path → FS → FS × Option GoError
  | [], fs => (fs, none)
  | sourceFile :: rest, fs =>
    match rewriteSourceFile l fs sourceFile with
    | (fs1, some e) => (fs1, some e)
    | (fs1, none) => rewriteLoop l rest fs1

/-- The error `updateFiles` returns when nothing was asked for. -/
def errNoLicense : GoError :=
  GoError.new "No project or source code license files provided - no changes made".toList

/-- The block `if len(l.projectLicense) != 0 { ... }` of `updateFiles`: the filesystem
afterwards, the error of an early `return err` if there is one, and the variable
`changes`.  The result of `licenseF.WriteString` is dropped. -/
def projectLicenseBlock (l : License) (fs : FS) (changes : Bool) :
    FS × Option GoError × Bool :=
  if l.projectLicense.length ≠ 0 then
    match osCreate fs "LICENSE".toList with
    | (fs1, some e) => (fs1, some e, changes)
    | (fs1, none) => ((fileWriteString fs1 "LICENSE".toList l.projectLicense).1, none, true)
  else (fs, none, changes)

/-- The block `if len(l.sourceFileLicense) != 0 { ... }` of `updateFiles`, in the same
form.  The result of `l.getSourceFiles` is dropped. -/
def sourceFilesBlock (l : License) (fs : FS) (changes : Bool) :
    FS × Option GoError × Bool :=
  if l.sourceFileLicense.length ≠ 0 then
    match getSourceFiles l sourceFileExt fs with
    | (l1, fs1, _) =>
      match rewriteLoop l1 l1.sourceFiles fs1 with
      | (fs2, some e) => (fs2, some e, changes)
      | (fs2, none) => (fs2, none, true)
  else (fs, none, changes)

/-- The method `updateFiles` of license.go: the filesystem afterwards and the returned
error (`none` for nil). -/
def updateFiles (l : License) (fs : FS) : FS × Option GoError :=
  match projectLicenseBlock l fs false with
  | (fs1, some e, _) => (fs1, some e)
  | (fs1, none, changes) =>
    match sourceFilesBlock l fs1 changes with
    | (fs2, some e, _) => (fs2, some e)
    | (fs2, none, changes) =>
      if !changes then (fs2, some errNoLicense) else (fs2, none)

/-- The function `RunE` of `LicenseCmd`, with the two flag variables as arguments. -/
def runE (projectLicenseFilename sourceFileLicenseFilename : Path) (fs : FS) :
    FS × Option GoError :=
  let lic : License := { projectLicense := [], sourceFileLicense := [], sourceFiles := [] }
  let r1 : FS × Except GoError License :=
    if projectLicenseFilename.length ≠ 0 then
      match ioutilReadFile fs projectLicenseFilename with
      | (fs1, Except.error e) => (fs1, Except.error e)
      | (fs1, Except.ok pLicense) => (fs1, Except.ok { lic with projectLicense := pLicense })
    else (fs, Except.ok lic)
  match r1 with
  | (fs1, Except.error e) => (fs1, some e)
  | (fs1, Except.ok lic1) =>
    let r2 : FS × Except GoError License :=
      if sourceFileLicenseFilename.length ≠ 0 then
        match ioutilReadFile fs1 sourceFileLicenseFilename with
        | (fs2, Except.error e) => (fs2, Except.error e)
        | (fs2, Except.ok sLicense) =>
          (fs2, Except.ok { lic1 with sourceFileLicense := sLicense })
      else (fs1, Except.ok lic1)
    match r2 with
    | (fs2, Except.error e) => (fs2, some e)
    | (fs2, Except.ok lic2) => updateFiles lic2 fs2

/-! ## The selection rule as the specification words it -/

/-- The last three bytes of a name (the whole name when it is shorter). -/
def lastThree (n : GoString) : GoString := n.drop (n.length - 3)

/-- A name is selected when its length is greater than 4 and its last three bytes are
the extension with its dot. -/
def nameSelected (n : GoString) : Bool :=
  decide (4 < n.length) && decide (lastThree n = ".go".toList)

/-- A text without its one final newline, if it ends in one. -/
def dropFinalNewline (b : GoString) : GoString :=
  if b.getLast? = some '\n' then b.dropLast else b

/-! ## The controller suite-test scaffold -/

/-- Go `filepath.Join`: the non-empty elements joined by the separator.  The final
`Clean` is the identity on the paths this file builds (no empty, dot or dot-dot element,
no doubled separator), so it is left out. -/
def filepathJoin (elem : List GoString) : Path :=
  "/".toList.intercalate (elem.filter (fun e => decide (e ≠ [])))

/-- The first pair of `oldnew` whose old string starts the text `s`.  A generic
`strings.Replacer` compares the old strings in argument order. -/
def lookupOld (oldnew : List (GoString × GoString)) (s : GoString) :
    Option (GoString × GoString) :=
  oldnew.find? (fun p => p.1.isPrefixOf s)

/-- Go `strings.NewReplacer(oldnew...).Replace(s)` for non-empty old strings: the text
is read from the left, a matching old string is replaced by its new string and skipped,
and replaced text is not looked at again.  `skip` counts the bytes still to be skipped
of an old string that has just been replaced. -/
def replacerReplace (oldnew : List (GoString × GoString)) : Nat → GoString → GoString
  | _, [] => []
  | skip + 1, _ :: rest => replacerReplace oldnew skip rest
  | 0, c :: rest =>
    match lookupOld oldnew (c :: rest) with
    | some (old, new) => new ++ replacerReplace oldnew (old.length - 1) rest
    | none => c :: replacerReplace oldnew 0 rest

/-- The fields of kubebuilder's `resource.Resource` that the scaffold reads. -/
structure Resource where
  Group : GoString
  Domain : GoString
  Version : GoString
  Kind : GoString
  Plural : GoString

/-- Library functions and the template constant that `SetTemplateDefaults` passes
through without this development depending on their values: `strings.ToLower`,
`Resource.PackageName`, `machinery.NewMarkerFor` (rendered), `fmt.Sprintf` and the
constant `controllerSuiteTestTemplate`. -/
structure Library where
  toLower : GoString → GoString
  packageName : Resource → GoString
  newMarkerFor : Path → GoString → GoString
  sprintf : GoString → List GoString → GoString
  controllerSuiteTestTemplate : GoString

/-- The pairs of kubebuilder's `Resource.Replacer()`, in its order. -/
def Resource.replacerPairs (lib : Library) (r : Resource) : List (GoString × GoString) :=
  [ ("%[group]".toList, r.Group),
    ("%[version]".toList, r.Version),
    ("%[kind]".toList, lib.toLower r.Kind),
    ("%[plural]".toList, lib.toLower r.Plural),
    ("%[package-name]".toList, lib.packageName r) ]

/-- Kubebuilder's `machinery.IfExistsAction`. -/
inductive IfExistsAction where
  | SkipFile
  | Error
  | OverwriteFile
  deriving DecidableEq, Repr

/-- The constant `importMarker`. -/
def importMarker : GoString := "imports".toList

/-- The constant `addSchemeMarker`. -/
def addSchemeMarker : GoString := "scheme".toList

/-- The struct `SuiteTest` with the fields of its embedded mixins. -/
structure SuiteTest where
  Path : Path
  TemplateBody : GoString
  IfExistsAction : IfExistsAction
  MultiGroup : Bool
  Boilerplate : GoString
  Resource : Resource
  CRDDirectoryRelativePath : GoString
  Force : Bool

/-- The method `SuiteTest.SetTemplateDefaults`: the receiver afterwards and the returned
error (`none` for nil). -/
def SuiteTest.SetTemplateDefaults (lib : Library) (f : SuiteTest) :
    SuiteTest × Option GoError :=
  let f1 : SuiteTest :=
    if f.Path = [] then
      if f.MultiGroup && decide (f.Resource.Group ≠ []) then
        { f with Path := (filepathJoin
            ["controllers".toList, "%[group]".toList, "suite_test.go".toList]) }
      else
        { f with Path := (filepathJoin ["controllers".toList, "suite_test.go".toList]) }
    else f
  let f2 : SuiteTest := { f1 with IfExistsAction := IfExistsAction.OverwriteFile }
  let f3 : SuiteTest :=
    { f2 with Path := (replacerReplace (f2.Resource.replacerPairs lib) 0 f2.Path) }
  let f4 : SuiteTest :=
    { f3 with TemplateBody := (lib.sprintf lib.controllerSuiteTestTemplate
        [lib.newMarkerFor f3.Path importMarker, lib.newMarkerFor f3.Path addSchemeMarker]) }
  let f5 : SuiteTest := { f4 with CRDDirectoryRelativePath := "\"..\"".toList }
  let f6 : SuiteTest :=
    if f5.MultiGroup && decide (f5.Resource.Group ≠ []) then
      { f5 with CRDDirectoryRelativePath := "\"..\", \"..\"".toList }
    else f5
  (f6, none)

/-! ## Sample inputs -/

/-- A small working tree: two source files with four-byte names, longer-named source
files without a license header, with one, and with one whose closing token is indented,
a directory, and three license inputs. -/
def sampleTree : List (Path × Node) :=
  [ ("a.go".toList, Node.file "package a\n".toList),
    ("b.go".toList, Node.file "/*\nCopyright 2021\n*/\npackage b\n".toList),
    ("cmd".toList, Node.dir),
    ("cmd/main.go".toList, Node.file "package main\n".toList),
    ("cmd/root.go".toList, Node.file "/*\nCopyright 2021\n*/\npackage main\n".toList),
    ("cmd/open.go".toList, Node.file "/*\nCopyright 2021\n */\npackage main\n".toList),
    ("hdr.txt".toList, Node.file "// Licensed\n".toList),
    ("mit.txt".toList, Node.file "MIT License\n".toList),
    ("empty.txt".toList, Node.file []) ]

/-- The sample tree on a filesystem where nothing fails. -/
def sampleFS : FS :=
  { tree := sampleTree, outside := [], faults := noFaults, trace := [] }

/-- The sample tree on a full disk: files can be opened and truncated, every write
fails. -/
def fullDiskFS : FS :=
  { tree := sampleTree, outside := [],
    faults := { noFaults with writeString := fun _ => true },
    trace := [] }

/-- A receiver with no license text at all. -/
def noLicense : License :=
  { projectLicense := [], sourceFileLicense := [], sourceFiles := [] }

/-- A receiver with a source header only. -/
def headerOnly : License :=
  { projectLicense := [], sourceFileLicense := "// Licensed\n".toList, sourceFiles := [] }

/-- A receiver with both texts. -/
def bothLicenses : License :=
  { projectLicense := "MIT License\n".toList, sourceFileLicense := "// Licensed\n".toList,
    sourceFiles := [] }

/-- A header with the marker, closed on its last line. -/
def sampleHeader : GoString := "/*\nCopyright 2021\n*/\n".toList

/-- A scaffold input for a multi-group project. -/
def sampleSuiteTest : SuiteTest :=
  { Path := [], TemplateBody := [], IfExistsAction := IfExistsAction.SkipFile,
    MultiGroup := true, Boilerplate := [],
    Resource := { Group := "apps".toList, Domain := "example.com".toList,
                  Version := "v1".toList, Kind := "Web".toList, Plural := "webs".toList },
    CRDDirectoryRelativePath := [], Force := false }

/-- Stand-ins for the library functions, enough to run the scaffold. -/
def sampleLibrary : Library :=
  { toLower := fun s => s, packageName := fun r => r.Group,
    newMarkerFor := fun p m => p ++ m, sprintf := fun t args => t ++ args.flatten,
    controllerSuiteTestTemplate := [] }

/-- A source file with a license header followed by one line that is as long as the
scanner's buffer may get. -/
def longLineFile : GoString := sampleHeader ++ List.replicate maxScanTokenSize 'x'

/-! ## Facts about the scanning loop -/

theorem joinWithLeadingNewline_nil : joinWithLeadingNewline [] = [] := rfl

theorem joinWithLeadingNewline_cons (l : GoString) (ls : List GoString) :
    joinWithLeadingNewline (l :: ls) = '\n' :: l ++ joinWithLeadingNewline ls := by
  simp [joinWithLeadingNewline, List.flatMap]

theorem foldl_stripStep_found (ls : List GoString) (out : GoString) :
    ls.foldl stripStep { sourceFileContentOut := out, endOfLicenseFound := true }
      = { sourceFileContentOut := out ++ joinWithLeadingNewline ls,
          endOfLicenseFound := true } := by
  induction ls generalizing out with
  | nil => simp [joinWithLeadingNewline_nil]
  | cons l ls ih =>
    simp only [List.foldl_cons, stripStep, if_true]
    rw [ih, joinWithLeadingNewline_cons]
    simp

theorem afterClosing_nil : afterClosing [] = [] := rfl

theorem afterClosing_cons_closing (ls : List GoString) :
    afterClosing ("*/".toList :: ls) = ls := by
  simp [afterClosing, List.dropWhile]

theorem afterClosing_cons_other (l : GoString) (ls : List GoString) (h : l ≠ "*/".toList) :
    afterClosing (l :: ls) = afterClosing ls := by
  have h1 : ¬ l = ['*', '/'] := h
  simp [afterClosing, List.dropWhile, h1]

theorem foldl_stripStep_search (ls : List GoString) (out : GoString) :
    ls.foldl stripStep { sourceFileContentOut := out, endOfLicenseFound := false }
      = { sourceFileContentOut := out ++ joinWithLeadingNewline (afterClosing ls),
          endOfLicenseFound := decide ("*/".toList ∈ ls) } := by
  induction ls generalizing out with
  | nil => simp [afterClosing_nil, joinWithLeadingNewline_nil]
  | cons l ls ih =>
    by_cases h : l = "*/".toList
    · subst h
      simp only [List.foldl_cons, stripStep, afterClosing_cons_closing]
      simp [foldl_stripStep_found]
    · have h1 : ¬ l = ['*', '/'] := h
      have h2 : ¬ (['*', '/'] = l) := fun e => h e.symm
      simp only [List.foldl_cons, stripStep, afterClosing_cons_other l ls h]
      simp [h1, h2, ih]

theorem afterClosing_of_not_mem (ls : List GoString) (h : "*/".toList ∉ ls) :
    afterClosing ls = [] := by
  induction ls with
  | nil => rfl
  | cons l ls ih =>
    have hl : l ≠ "*/".toList := fun e => h (by simp [e])
    rw [afterClosing_cons_other l ls hl]
    exact ih (fun hm => h (List.mem_cons_of_mem _ hm))

theorem scanLines_eq_textLines (c : GoString)
    (h : ∀ l ∈ splitLines c, l.length < maxScanTokenSize) : scanLines c = textLines c := by
  unfold scanLines textLines
  congr 1
  rw [List.takeWhile_eq_self_iff]
  intro l hl
  simpa using h l hl

theorem mem_scanLines (c l : GoString) (h : l ∈ scanLines c) : l ∈ textLines c := by
  unfold scanLines at h
  unfold textLines
  rw [List.mem_map] at h ⊢
  obtain ⟨a, ha, rfl⟩ := h
  exact ⟨a, (List.takeWhile_sublist _).subset ha, rfl⟩

theorem stripLicense_of_marker (c : GoString) (hp : existingLic <+: c) :
    stripLicense c = (joinWithLeadingNewline (afterClosing (scanLines c)), none) := by
  have : stringsHasPrefix c existingLic = true := by
    simpa [stringsHasPrefix] using hp
  simp [stripLicense, this, foldl_stripStep_search]

theorem stripLicense_of_no_marker (c : GoString) (hp : ¬ existingLic <+: c) :
    stripLicense c = (c, none) := by
  have : stringsHasPrefix c existingLic = false := by
    simpa [stringsHasPrefix, ← List.isPrefixOf_iff_prefix] using hp
  simp [stripLicense, this]

/-! ## Facts about the filesystem operations -/

theorem lookup_cons_self (q : Path) (m : Node) (t : List (Path × Node)) :
    ((q, m) :: t).lookup q = some m := by
  simp [List.lookup]

theorem lookup_cons_ne (q k : Path) (m : Node) (t : List (Path × Node)) (h : q ≠ k) :
    ((k, m) :: t).lookup q = t.lookup q := by
  have hq : (q == k) = false := by simpa using h
  simp [List.lookup, hq]

theorem lookup_setNode (name q : Path) (n : Node) (t : List (Path × Node)) :
    (setNode name n t).lookup q = if q = name then some n else t.lookup q := by
  induction t with
  | nil =>
    by_cases h : q = name
    · subst h
      simp [setNode, lookup_cons_self]
    · simp [setNode, lookup_cons_ne _ _ _ _ h, h]
  | cons e t ih =>
    obtain ⟨k, m⟩ := e
    by_cases hk : k = name
    · subst hk
      by_cases h : q = k
      · subst h
        simp [setNode, lookup_cons_self]
      · simp [setNode, lookup_cons_ne _ _ _ _ h, h]
    · by_cases hqk : q = k
      · subst hqk
        simp [setNode, hk, lookup_cons_self]
      · simp [setNode, hk, lookup_cons_ne _ _ _ _ hqk, ih]

theorem keys_setNode_of_mem (name : Path) (n : Node) (t : List (Path × Node))
    (h : name ∈ t.map Prod.fst) : (setNode name n t).map Prod.fst = t.map Prod.fst := by
  induction t with
  | nil => simp at h
  | cons e t ih =>
    obtain ⟨k, m⟩ := e
    by_cases hk : k = name
    · simp [setNode, hk]
    · have h2 : name ∈ t.map Prod.fst := by
        simp only [List.map_cons, List.mem_cons] at h
        rcases h with h | h
        · exact absurd h.symm hk
        · exact h
      simp only [setNode, hk, if_false, List.map_cons, ih h2]

theorem keys_setNode_of_not_mem (name : Path) (n : Node) (t : List (Path × Node))
    (h : name ∉ t.map Prod.fst) :
    (setNode name n t).map Prod.fst = t.map Prod.fst ++ [name] := by
  induction t with
  | nil => simp [setNode]
  | cons e t ih =>
    obtain ⟨k, m⟩ := e
    simp only [List.map_cons, List.mem_cons, not_or] at h
    have hk : ¬ k = name := fun e => h.1 e.symm
    simp only [setNode, hk, if_false, List.map_cons, ih h.2, List.cons_append]

theorem nodup_keys_setNode (name : Path) (n : Node) (t : List (Path × Node))
    (h : (t.map Prod.fst).Nodup) : ((setNode name n t).map Prod.fst).Nodup := by
  by_cases hm : name ∈ t.map Prod.fst
  · rw [keys_setNode_of_mem name n t hm]
    exact h
  · rw [keys_setNode_of_not_mem name n t hm, List.nodup_append]
    refine ⟨h, List.nodup_singleton _, ?_⟩
    intro a ha hb
    rw [List.mem_singleton] at hb
    subst hb
    exact hm ha

theorem mem_keys_setNode (name q : Path) (n : Node) (t : List (Path × Node)) :
    q ∈ (setNode name n t).map Prod.fst ↔ q = name ∨ q ∈ t.map Prod.fst := by
  by_cases hm : name ∈ t.map Prod.fst
  · rw [keys_setNode_of_mem name n t hm]
    constructor
    · intro hq; exact Or.inr hq
    · rintro (rfl | hq)
      · exact hm
      · exact hq
  · rw [keys_setNode_of_not_mem name n t hm, List.mem_append, List.mem_singleton]
    exact or_comm

theorem node_log (fs : FS) (op : Op) (q : Path) : (fs.log op).node q = fs.node q := rfl

theorem osOpenFile_ok (fs fs1 : FS) (name : Path) (h : osOpenFile fs name = (fs1, none)) :
    fs1 = { fs with tree := setNode name (Node.file []) fs.tree,
                    trace := fs.trace ++ [Op.openTrunc name] } := by
  unfold osOpenFile at h
  by_cases hf : fs.faults.openFile name = true
  · simp [hf] at h
  · simp only [hf] at h
    cases hn : fs.node name with
    | none =>
      simp only [hn] at h
      exact (Prod.mk.inj h).1.symm
    | some nd =>
      cases nd with
      | dir => simp [hn] at h
      | file c =>
        simp only [hn] at h
        exact (Prod.mk.inj h).1.symm

theorem osCreate_ok (fs fs1 : FS) (name : Path) (h : osCreate fs name = (fs1, none)) :
    fs1 = { fs with tree := setNode name (Node.file []) fs.tree,
                    trace := fs.trace ++ [Op.create name] } := by
  unfold osCreate at h
  by_cases hf : fs.faults.create name = true
  · simp [hf] at h
  · simp only [hf] at h
    cases hn : fs.node name with
    | none =>
      simp only [hn] at h
      exact (Prod.mk.inj h).1.symm
    | some nd =>
      cases nd with
      | dir => simp [hn] at h
      | file c =>
        simp only [hn] at h
        exact (Prod.mk.inj h).1.symm

theorem fileWriteString_faults (fs : FS) (name : Path) (s : GoString) :
    (fileWriteString fs name s).1.faults = fs.faults := by
  unfold fileWriteString
  by_cases hf : fs.faults.writeString name = true
  · simp [hf, FS.log]
  · simp only [hf]
    cases hn : fs.node name with
    | none => rfl
    | some nd => cases nd <;> rfl

theorem fileWriteString_node_other (fs : FS) (name q : Path) (s : GoString) (hq : q ≠ name) :
    (fileWriteString fs name s).1.node q = fs.node q := by
  unfold fileWriteString
  by_cases hf : fs.faults.writeString name = true
  · simp [hf, node_log]
  · simp only [hf]
    cases hn : fs.node name with
    | none => simp [FS.node, FS.log, lookup_setNode, hq]
    | some nd => cases nd <;> simp [FS.node, FS.log, lookup_setNode, hq]

theorem fileWriteString_node_empty (fs : FS) (name : Path) (s : GoString)
    (hn : fs.node name = some (Node.file [])) (hf : fs.faults.writeString name = false) :
    (fileWriteString fs name s).1.node name = some (Node.file s) := by
  unfold fileWriteString
  simp only [hf, hn]
  simp [FS.node, FS.log, lookup_setNode]

theorem ioutilReadFile_fst (fs : FS) (name : Path) :
    (ioutilReadFile fs name).1 = fs.log (Op.readFile name) := by
  unfold ioutilReadFile
  by_cases hf : fs.faults.readFile name = true
  · simp [hf]
  · simp only [hf]
    cases hn : fs.node name with
    | none =>
      simp only []
      cases ho : fs.outside.lookup name <;> rfl
    | some nd => cases nd <;> rfl

theorem ioutilReadFile_of_file (fs : FS) (name : Path) (c x : GoString)
    (hn : fs.node name = some (Node.file c)) (h : (ioutilReadFile fs name).2 = Except.ok x) :
    x = c := by
  unfold ioutilReadFile at h
  by_cases hf : fs.faults.readFile name = true
  · simp [hf] at h
  · simp only [hf, hn] at h
    simp at h
    cases h
    rfl

/-- What one pass of the loop body does when it reaches its end. -/
theorem rewriteSourceFile_ok (l : License) (fs fs1 : FS) (p : Path)
    (h : rewriteSourceFile l fs p = (fs1, none)) :
    fs1.faults = fs.faults ∧ (∀ q, q ≠ p → fs1.node q = fs.node q) ∧
    (∀ X, fs.node p = some (Node.file X) → fs.faults.writeString p = false →
      fs1.node p = some (Node.file (l.sourceFileLicense ++ (stripLicense X).1))) := by
  unfold rewriteSourceFile at h
  have hfst := ioutilReadFile_fst fs p
  cases hr : ioutilReadFile fs p with
  | mk fsr res =>
    rw [hr] at h hfst
    simp only at hfst
    cases res with
    | error e => simp at h
    | ok content =>
      simp only at h
      cases hs : stripLicense content with
      | mk stripped err =>
        rw [hs] at h
        cases err with
        | some e => simp at h
        | none =>
          simp only at h
          cases ho : osOpenFile fsr p with
          | mk fso oerr =>
            rw [ho] at h
            cases oerr with
            | some e => simp at h
            | none =>
              simp only at h
              have hfso := osOpenFile_ok fsr fso p ho
              have h1 := (Prod.mk.inj h).1
              subst h1
              refine ⟨?_, ?_, ?_⟩
              · rw [fileWriteString_faults, hfso, hfst]
                rfl
              · intro q hq
                rw [fileWriteString_node_other _ _ _ _ hq, hfso, hfst]
                simp [FS.node, FS.log, lookup_setNode, hq]
              · intro X hX hw
                have hc : content = X := by
                  apply ioutilReadFile_of_file fs p X content hX
                  rw [hr]
                subst hc
                have : stripped = (stripLicense content).1 := by rw [hs]
                subst this
                apply fileWriteString_node_empty
                · rw [hfso]
                  simp [FS.node, lookup_setNode]
                · rw [hfso, hfst]
                  exact hw

/-! ## Facts about the two loops -/

theorem walkFn_no_err (l : License) (path : Path) (name : GoString) :
    walkFn l path name false
      = (if nameSelected name then { l with sourceFiles := l.sourceFiles ++ [path] } else l,
         none) := by
  unfold walkFn nameSelected lastThree
  by_cases h1 : name.length > 4
  · by_cases h2 : name.drop (name.length - 3) = ".go".toList
    · have h1b : 4 < name.length := h1
      simp [h1b, h2]
    · have h1b : 4 < name.length := h1
      simp only [h1b, h2, Bool.false_eq_true, if_false, if_true, decide_True, decide_False,
        Bool.and_false, Bool.true_and]
  · have h1b : ¬ 4 < name.length := h1
    simp [h1b, h1]

theorem walkLoop_no_err (calls : List (Path × Bool)) (l : License)
    (h : ∀ c ∈ calls, c.2 = false) :
    walkLoop l calls
      = ({ l with sourceFiles := l.sourceFiles ++
            (calls.map Prod.fst).filter (fun p => nameSelected (baseName p)) }, none) := by
  induction calls generalizing l with
  | nil => simp [walkLoop]
  | cons c calls ih =>
    obtain ⟨path, e⟩ := c
    have he : e = false := h (path, e) (List.mem_cons_self _ _)
    subst he
    have hrest : ∀ c ∈ calls, c.2 = false := fun c hc => h c (List.mem_cons_of_mem _ hc)
    unfold walkLoop
    rw [walkFn_no_err]
    simp only [ih _ hrest, List.map_cons, List.filter_cons]
    by_cases hs : nameSelected (baseName path) = true
    · simp [hs]
    · simp [hs]

theorem walkCalls_no_err (fs : FS) (h : ∀ x, fs.faults.lstat x = false) :
    ∀ c ∈ walkCalls fs, c.2 = false := by
  intro c hc
  unfold walkCalls at hc
  rw [List.mem_map] at hc
  obtain ⟨p, _, rfl⟩ := hc
  exact h p

theorem walkCalls_paths (fs : FS) :
    (walkCalls fs).map Prod.fst = ".".toList :: fs.tree.map Prod.fst := by
  unfold walkCalls
  rw [List.map_map]
  exact List.map_id _

theorem rewriteLoop_ok (l : License) (ps : List Path) (fs fs1 : FS) (hnd : ps.Nodup)
    (h : rewriteLoop l ps fs = (fs1, none)) :
    fs1.faults = fs.faults ∧ (∀ q, q ∉ ps → fs1.node q = fs.node q) ∧
    (∀ p ∈ ps, ∀ X, fs.node p = some (Node.file X) → fs.faults.writeString p = false →
      fs1.node p = some (Node.file (l.sourceFileLicense ++ (stripLicense X).1))) := by
  induction ps generalizing fs with
  | nil =>
    simp only [rewriteLoop] at h
    have := (Prod.mk.inj h).1
    subst this
    exact ⟨rfl, fun _ _ => rfl, fun p hp => absurd hp (List.not_mem_nil p)⟩
  | cons p ps ih =>
    unfold rewriteLoop at h
    cases hb : rewriteSourceFile l fs p with
    | mk fsb eb =>
      rw [hb] at h
      cases eb with
      | some e => simp at h
      | none =>
        simp only at h
        obtain ⟨hf1, hother1, hself1⟩ := rewriteSourceFile_ok l fs fsb p hb
        rw [List.nodup_cons] at hnd
        obtain ⟨hf2, hother2, hin2⟩ := ih fsb hnd.2 h
        refine ⟨hf2.trans hf1, ?_, ?_⟩
        · intro q hq
          rw [List.mem_cons, not_or] at hq
          rw [hother2 q hq.2, hother1 q hq.1]
        · intro p1 hp1 X hX hw
          rw [List.mem_cons] at hp1
          rcases hp1 with rfl | hp1
          · rw [hother2 p1 hnd.1]
            exact hself1 X hX hw
          · have hne : p1 ≠ p := fun e => hnd.1 (e ▸ hp1)
            apply hin2 p1 hp1 X
            · rw [hother1 p1 hne]
              exact hX
            · rw [hf1]
              exact hw

/-! ## Facts about lines -/

theorem splitLines_ne_nil (c : Char) (rest : GoString) : splitLines (c :: rest) ≠ [] := by
  unfold splitLines
  by_cases h : c = '\n'
  · simp [h]
  · simp only [h, if_false]
    cases splitLines rest <;> simp

theorem splitLines_cons_newline (rest : GoString) :
    splitLines ('\n' :: rest) = [] :: splitLines rest := by
  simp [splitLines]

theorem splitLines_cons_other (c : Char) (rest l : GoString) (ls : List GoString)
    (hc : c ≠ '\n') (h : splitLines rest = l :: ls) :
    splitLines (c :: rest) = (c :: l) :: ls := by
  simp [splitLines, hc, h]

theorem splitLines_singleton (c : Char) (hc : c ≠ '\n') : splitLines [c] = [[c]] := by
  simp [splitLines, hc]

theorem splitLines_append (a b : GoString) (h : a.getLast? = some '\n') :
    splitLines (a ++ b) = splitLines a ++ splitLines b := by
  induction a with
  | nil => simp at h
  | cons c a ih =>
    cases a with
    | nil =>
      simp only [List.getLast?_singleton, Option.some.injEq] at h
      subst h
      simp [splitLines]
    | cons d a =>
      have h2 : (d :: a).getLast? = some '\n' := by
        rw [List.getLast?_cons_cons] at h
        exact h
      have ih2 := ih h2
      by_cases hc : c = '\n'
      · subst hc
        rw [List.cons_append, splitLines_cons_newline, splitLines_cons_newline, ih2]
        rfl
      · obtain ⟨l, ls, hl⟩ := List.exists_cons_of_ne_nil (splitLines_ne_nil d a)
        rw [List.cons_append, splitLines_cons_other c _ l (ls ++ splitLines b) hc,
          splitLines_cons_other c _ l ls hc hl]
        · rfl
        · rw [ih2, hl]
          rfl

theorem dropFinalNewline_cons_cons (c d : Char) (b : GoString) :
    dropFinalNewline (c :: d :: b) = c :: dropFinalNewline (d :: b) := by
  unfold dropFinalNewline
  rw [List.getLast?_cons_cons]
  by_cases h : (d :: b).getLast? = some '\n'
  · rw [if_pos h, if_pos h]
    rfl
  · rw [if_neg h, if_neg h]

theorem join_splitLines_all (b : GoString) (hne : b ≠ []) :
    joinWithLeadingNewline (splitLines b) = '\n' :: dropFinalNewline b := by
  induction b with
  | nil => exact absurd rfl hne
  | cons c b ih =>
    cases b with
    | nil =>
      by_cases hc : c = '\n'
      · subst hc
        decide
      · rw [splitLines_singleton c hc]
        have hd : dropFinalNewline [c] = [c] := by
          simp [dropFinalNewline, hc]
        rw [hd]
        simp [joinWithLeadingNewline]
    | cons d b =>
      have ih2 := ih (List.cons_ne_nil d b)
      rw [dropFinalNewline_cons_cons]
      by_cases hc : c = '\n'
      · subst hc
        rw [splitLines_cons_newline, joinWithLeadingNewline_cons, ih2]
        rfl
      · obtain ⟨l, ls, hl⟩ := List.exists_cons_of_ne_nil (splitLines_ne_nil d b)
        rw [hl, joinWithLeadingNewline_cons] at ih2
        rw [splitLines_cons_other c _ l ls hc hl, joinWithLeadingNewline_cons]
        simp only [List.cons_append, List.cons.injEq, true_and] at ih2 ⊢
        exact ih2

theorem dropFinalNewline_of_last_ne (b : GoString) (h : b.getLast? ≠ some '\n') :
    dropFinalNewline b = b := by
  simp [dropFinalNewline, h]

theorem dropCR_of_last_ne (l : GoString) (h : l.getLast? ≠ some '\r') : dropCR l = l := by
  simp [dropCR, h]

theorem map_dropCR_of_last_ne (ls : List GoString) (h : ∀ l ∈ ls, l.getLast? ≠ some '\r') :
    ls.map dropCR = ls := by
  induction ls with
  | nil => rfl
  | cons l ls ih =>
    rw [List.map_cons, dropCR_of_last_ne l (h l (List.mem_cons_self _ _)),
      ih (fun x hx => h x (List.mem_cons_of_mem _ hx))]

theorem afterClosing_append_closing (pre rest : List GoString) (h : "*/".toList ∉ pre) :
    afterClosing (pre ++ "*/".toList :: rest) = rest := by
  induction pre with
  | nil => exact afterClosing_cons_closing rest
  | cons l pre ih =>
    have hl : l ≠ "*/".toList := fun e => h (by simp [e])
    rw [List.cons_append, afterClosing_cons_other l _ hl]
    exact ih (fun hm => h (List.mem_cons_of_mem _ hm))

theorem joinWithLeadingNewline_head (ls : List GoString) :
    joinWithLeadingNewline ls = [] ∨ ∃ t, joinWithLeadingNewline ls = '\n' :: t := by
  cases ls with
  | nil => exact Or.inl rfl
  | cons l ls => exact Or.inr ⟨_, joinWithLeadingNewline_cons l ls⟩

theorem join_ne_of_marker (ls : List GoString) (c : GoString) (hp : existingLic <+: c) :
    joinWithLeadingNewline ls ≠ c := by
  obtain ⟨t, rfl⟩ := hp
  rcases joinWithLeadingNewline_head ls with h | ⟨u, h⟩
  · rw [h]
    simp [existingLic]
  · rw [h]
    simp [existingLic]

/-- The result of `stripLicense` on a text with the marker, none of whose lines reaches
the scanner's limit: the lines after the first closing line, each behind a newline. -/
theorem stripLicense_within_limit (c : GoString) (hp : existingLic <+: c)
    (hlim : ∀ l ∈ splitLines c, l.length < maxScanTokenSize) :
    stripLicense c = (joinWithLeadingNewline (afterClosing (textLines c)), none) := by
  rw [stripLicense_of_marker c hp, scanLines_eq_textLines c hlim]

/-! ## The loop body on a readable file -/

theorem rewriteSourceFile_of_file (l : License) (fs : FS) (p : Path) (c : GoString)
    (hn : fs.node p = some (Node.file c)) (hr : fs.faults.readFile p = false)
    (ho : fs.faults.openFile p = false) :
    (rewriteSourceFile l fs p).2 = none ∧
    (rewriteSourceFile l fs p).1.trace
      = fs.trace ++ [Op.readFile p, Op.openTrunc p,
          Op.writeString p (l.sourceFileLicense ++ (stripLicense c).1)] ∧
    (fs.faults.writeString p = false →
      (rewriteSourceFile l fs p).1.node p
        = some (Node.file (l.sourceFileLicense ++ (stripLicense c).1))) := by
  have hread : ioutilReadFile fs p = (fs.log (Op.readFile p), Except.ok c) := by
    unfold ioutilReadFile
    simp only [hr, hn]
    simp
  have hs : ∃ s, stripLicense c = (s, none) := by
    unfold stripLicense
    split
    · exact ⟨_, rfl⟩
    · exact ⟨_, rfl⟩
  obtain ⟨s, hs⟩ := hs
  have hopen : osOpenFile (fs.log (Op.readFile p)) p
      = (FS.mk (setNode p (Node.file []) fs.tree) fs.outside fs.faults
            (fs.trace ++ [Op.readFile p] ++ [Op.openTrunc p]), none) := by
    unfold osOpenFile
    have hn2 : (fs.log (Op.readFile p)).node p = some (Node.file c) := hn
    have ho2 : (fs.log (Op.readFile p)).faults.openFile p = false := ho
    simp only [ho2, hn2]
    simp [FS.log]
  have hbody : rewriteSourceFile l fs p
      = ((fileWriteString
            (FS.mk (setNode p (Node.file []) fs.tree) fs.outside fs.faults
              (fs.trace ++ [Op.readFile p] ++ [Op.openTrunc p]))
            p (l.sourceFileLicense ++ s)).1, none) := by
    unfold rewriteSourceFile
    rw [hread]
    simp only [hs, hopen]
  rw [hbody, hs]
  refine ⟨rfl, ?_, ?_⟩
  · unfold fileWriteString
    by_cases hw : fs.faults.writeString p = true
    · simp [hw, FS.log]
    · simp only [hw, FS.node, lookup_setNode]
      simp [FS.log]
  · intro hw
    apply fileWriteString_node_empty
    · simp [FS.node, lookup_setNode]
    · exact hw

/-! ## A line as long as the scanner allows -/

theorem splitLines_replicate (n : Nat) (c : Char) (hc : c ≠ '\n') :
    splitLines (List.replicate (n + 1) c) = [List.replicate (n + 1) c] := by
  induction n with
  | zero => exact splitLines_singleton c hc
  | succ n ih =>
    rw [List.replicate_succ, splitLines_cons_other c _ _ [] hc ih]

theorem getLast?_replicate_ne (n : Nat) (c d : Char) (hc : c ≠ d) :
    (List.replicate n c).getLast? ≠ some d := by
  intro h
  have hm : d ∈ List.replicate n c := List.mem_of_getLast?_eq_some h
  exact hc (List.eq_of_mem_replicate hm).symm

theorem textLines_with_long_line (L : GoString) (hs : splitLines L = [L])
    (hcr : dropCR L = L) :
    textLines (sampleHeader ++ L)
      = ["/*".toList, "Copyright 2021".toList] ++ "*/".toList :: [L] := by
  unfold textLines
  rw [splitLines_append sampleHeader L (by decide), hs, List.map_append, List.map_singleton,
    hcr]
  rfl

theorem scanLines_with_long_line (L : GoString) (hs : splitLines L = [L])
    (hlen : maxScanTokenSize ≤ L.length) :
    scanLines (sampleHeader ++ L)
      = ["/*".toList, "Copyright 2021".toList, "*/".toList] := by
  unfold scanLines
  rw [splitLines_append sampleHeader L (by decide), hs]
  have h1 : splitLines sampleHeader
      = ["/*".toList, "Copyright 2021".toList, "*/".toList] := by decide
  have h2 : ¬ L.length < maxScanTokenSize := Nat.not_lt.mpr hlen
  rw [h1]
  simp only [List.cons_append, List.nil_append, List.takeWhile_cons, h2, decide_False,
    Bool.false_eq_true, if_false]
  decide

/-! ## Facts about the two blocks of `updateFiles` -/

theorem mem_keys_of_lookup (t : List (Path × Node)) (q : Path) (n : Node)
    (h : t.lookup q = some n) : q ∈ t.map Prod.fst := by
  induction t with
  | nil => simp [List.lookup] at h
  | cons e t ih =>
    obtain ⟨k, m⟩ := e
    by_cases hk : q = k
    · rw [hk]
      exact List.mem_cons_self _ _
    · rw [lookup_cons_ne q k m t hk] at h
      exact List.mem_cons_of_mem _ (ih h)

theorem osOpenFile_node_other (fs : FS) (name q : Path) (hq : q ≠ name) :
    (osOpenFile fs name).1.node q = fs.node q := by
  unfold osOpenFile
  by_cases hf : fs.faults.openFile name = true
  · simp [hf, node_log]
  · simp only [hf]
    cases hn : fs.node name with
    | none => simp [FS.node, FS.log, lookup_setNode, hq]
    | some nd => cases nd <;> simp [FS.node, FS.log, lookup_setNode, hq]

theorem rewriteSourceFile_node_other (l : License) (fs : FS) (p q : Path) (hq : q ≠ p) :
    (rewriteSourceFile l fs p).1.node q = fs.node q := by
  unfold rewriteSourceFile
  have hfst := ioutilReadFile_fst fs p
  cases hr : ioutilReadFile fs p with
  | mk fsr res =>
    rw [hr] at hfst
    simp only at hfst
    subst hfst
    cases res with
    | error e => rfl
    | ok content =>
      simp only
      cases hs : stripLicense content with
      | mk stripped err =>
        cases err with
        | some e => rfl
        | none =>
          simp only
          have hopen := osOpenFile_node_other (fs.log (Op.readFile p)) p q hq
          cases ho : osOpenFile (fs.log (Op.readFile p)) p with
          | mk fso oerr =>
            rw [ho] at hopen
            simp only at hopen
            cases oerr with
            | some e => exact hopen
            | none =>
              simp only
              rw [fileWriteString_node_other _ _ _ _ hq, hopen]
              rfl

theorem rewriteLoop_node_other (l : License) (ps : List Path) (fs : FS) (q : Path)
    (hq : q ∉ ps) : (rewriteLoop l ps fs).1.node q = fs.node q := by
  induction ps generalizing fs with
  | nil => rfl
  | cons p ps ih =>
    rw [List.mem_cons, not_or] at hq
    unfold rewriteLoop
    have hb := rewriteSourceFile_node_other l fs p q hq.1
    cases hr : rewriteSourceFile l fs p with
    | mk fsb eb =>
      rw [hr] at hb
      cases eb with
      | some e => exact hb
      | none =>
        simp only
        rw [ih fsb hq.2]
        exact hb

theorem walkLoop_mem (calls : List (Path × Bool)) (l : License) (p : Path)
    (h : p ∈ (walkLoop l calls).1.sourceFiles) :
    p ∈ l.sourceFiles ∨ nameSelected (baseName p) = true := by
  induction calls generalizing l with
  | nil => exact Or.inl h
  | cons c calls ih =>
    obtain ⟨path, e⟩ := c
    unfold walkLoop at h
    cases e with
    | true =>
      simp only [walkFn, if_true] at h
      exact Or.inl h
    | false =>
      rw [walkFn_no_err] at h
      simp only at h
      rcases ih _ h with h1 | h1
      · by_cases hs : nameSelected (baseName path) = true
        · simp only [hs, if_true, List.mem_append, List.mem_singleton] at h1
          rcases h1 with h1 | h1
          · exact Or.inl h1
          · exact Or.inr (h1 ▸ hs)
        · simp only [hs, if_false] at h1
          exact Or.inl h1
      · exact Or.inr h1

/-- The second block leaves alone every path whose name the walk does not select. -/
theorem sourceFilesBlock_node_other (l : License) (fs : FS) (changes : Bool) (q : Path)
    (hl : q ∉ l.sourceFiles) (hq : nameSelected (baseName q) = false) :
    (sourceFilesBlock l fs changes).1.node q = fs.node q := by
  unfold sourceFilesBlock
  by_cases hs : l.sourceFileLicense.length ≠ 0
  · rw [if_pos hs]
    simp only [getSourceFiles]
    have hnot : q ∉ (walkLoop l (walkCalls fs)).1.sourceFiles := by
      intro hm
      rcases walkLoop_mem _ _ _ hm with h1 | h1
      · exact hl h1
      · rw [hq] at h1
        exact Bool.false_ne_true h1
    have hloop := rewriteLoop_node_other (walkLoop l (walkCalls fs)).1 _
      (fs.log (Op.walk ".".toList)) q hnot
    cases hr : rewriteLoop (walkLoop l (walkCalls fs)).1
        (walkLoop l (walkCalls fs)).1.sourceFiles (fs.log (Op.walk ".".toList)) with
    | mk fs2 e2 =>
      rw [hr] at hloop
      cases e2 with
      | some e => exact hloop
      | none => exact hloop
  · rw [if_neg hs]

/-- The second block, when it ends without error on a tree with distinct paths and a
walk that meets no error, leaves each selected file with the header followed by its
stripped content. -/
theorem sourceFilesBlock_ok (l : License) (fs fs1 : FS) (changes changes1 : Bool)
    (hH : l.sourceFileLicense ≠ []) (hl : l.sourceFiles = [])
    (hnd : (fs.tree.map Prod.fst).Nodup) (hwalk : ∀ x, fs.faults.lstat x = false)
    (h : sourceFilesBlock l fs changes = (fs1, none, changes1))
    (p : Path) (X : GoString) (hp : fs.node p = some (Node.file X))
    (hsel : nameSelected (baseName p) = true) (hw : fs.faults.writeString p = false) :
    fs1.node p = some (Node.file (l.sourceFileLicense ++ (stripLicense X).1)) := by
  unfold sourceFilesBlock at h
  have hs : l.sourceFileLicense.length ≠ 0 := by
    intro h0
    exact hH (List.length_eq_zero.mp h0)
  rw [if_pos hs] at h
  simp only [getSourceFiles] at h
  rw [walkLoop_no_err _ _ (walkCalls_no_err fs hwalk), walkCalls_paths, hl] at h
  simp only [List.nil_append] at h
  have hdot : List.filter (fun p => nameSelected (baseName p))
        (".".toList :: fs.tree.map Prod.fst)
      = List.filter (fun p => nameSelected (baseName p)) (fs.tree.map Prod.fst) :=
    List.filter_cons_of_neg (by decide)
  rw [hdot] at h
  cases hr : rewriteLoop
      { l with sourceFiles :=
          (fs.tree.map Prod.fst).filter (fun p => nameSelected (baseName p)) }
      ((fs.tree.map Prod.fst).filter (fun p => nameSelected (baseName p)))
      (fs.log (Op.walk ".".toList)) with
  | mk fs2 e2 =>
    rw [hr] at h
    cases e2 with
    | some e => simp at h
    | none =>
      simp only at h
      have h1 := (Prod.mk.inj h).1
      subst h1
      have hmem : p ∈ (fs.tree.map Prod.fst).filter (fun p => nameSelected (baseName p)) := by
        rw [List.mem_filter]
        exact ⟨mem_keys_of_lookup _ _ _ hp, hsel⟩
      exact (rewriteLoop_ok _ _ _ _ (hnd.filter _) hr).2.2 p hmem X hp hw

theorem fileWriteString_tree (fs : FS) (name : Path) (s : GoString) :
    (fileWriteString fs name s).1.tree = fs.tree ∨
    ∃ n, (fileWriteString fs name s).1.tree = setNode name n fs.tree := by
  unfold fileWriteString
  by_cases hf : fs.faults.writeString name = true
  · simp [hf, FS.log]
  · simp only [hf]
    cases hn : fs.node name with
    | none => exact Or.inr ⟨_, rfl⟩
    | some nd =>
      cases nd with
      | dir => exact Or.inr ⟨_, rfl⟩
      | file c => exact Or.inr ⟨_, rfl⟩

/-- The first block, when it ends without error. -/
theorem projectLicenseBlock_ok (l : License) (fs fs1 : FS) (changes changes1 : Bool)
    (h : projectLicenseBlock l fs changes = (fs1, none, changes1)) :
    fs1.faults = fs.faults ∧
    (∀ q, q ≠ "LICENSE".toList → fs1.node q = fs.node q) ∧
    ((fs.tree.map Prod.fst).Nodup → (fs1.tree.map Prod.fst).Nodup) ∧
    (l.projectLicense ≠ [] → fs.faults.writeString "LICENSE".toList = false →
      fs1.node "LICENSE".toList = some (Node.file l.projectLicense)) ∧
    (l.projectLicense = [] → fs1 = fs) := by
  unfold projectLicenseBlock at h
  by_cases hp : l.projectLicense.length ≠ 0
  · rw [if_pos hp] at h
    cases hc : osCreate fs "LICENSE".toList with
    | mk fsc ec =>
      rw [hc] at h
      cases ec with
      | some e => simp at h
      | none =>
        simp only at h
        have hfsc := osCreate_ok fs fsc _ hc
        have h1 := (Prod.mk.inj h).1
        subst h1
        refine ⟨?_, ?_, ?_, ?_, ?_⟩
        · rw [fileWriteString_faults, hfsc]
        · intro q hq
          rw [fileWriteString_node_other _ _ _ _ hq, hfsc]
          simp only [FS.node]
          rw [lookup_setNode, if_neg hq]
        · intro hnd
          have hnd1 : (fsc.tree.map Prod.fst).Nodup := by
            rw [hfsc]
            exact nodup_keys_setNode _ _ _ hnd
          rcases fileWriteString_tree fsc "LICENSE".toList l.projectLicense with ht | ⟨n, ht⟩
          · rw [ht]
            exact hnd1
          · rw [ht]
            exact nodup_keys_setNode _ _ _ hnd1
        · intro _ hw
          apply fileWriteString_node_empty
          · rw [hfsc]
            simp [FS.node, lookup_setNode]
          · rw [hfsc]
            exact hw
        · intro h0
          rw [h0] at hp
          exact absurd rfl hp
  · rw [if_neg hp] at h
    have h1 := (Prod.mk.inj h).1
    subst h1
    exact ⟨rfl, fun _ _ => rfl, fun hnd => hnd, fun hne => absurd
      (List.length_eq_zero.mp (not_not.mp hp)) hne, fun _ => rfl⟩

/-- What a run of `updateFiles` that returns nil has done to the source files. -/
theorem updateFiles_ok_source (l : License) (fs : FS)
    (hH : l.sourceFileLicense ≠ []) (hl : l.sourceFiles = [])
    (hnd : (fs.tree.map Prod.fst).Nodup) (hwalk : ∀ x, fs.faults.lstat x = false)
    (hok : (updateFiles l fs).2 = none)
    (p : Path) (X : GoString) (hp : fs.node p = some (Node.file X))
    (hsel : nameSelected (baseName p) = true) (hw : fs.faults.writeString p = false) :
    (updateFiles l fs).1.node p
      = some (Node.file (l.sourceFileLicense ++ (stripLicense X).1)) := by
  unfold updateFiles at hok ⊢
  cases h1 : projectLicenseBlock l fs false with
  | mk fs1 r1 =>
    obtain ⟨e1, c1⟩ := r1
    rw [h1] at hok
    cases e1 with
    | some e => simp at hok
    | none =>
      simp only at hok ⊢
      obtain ⟨hf1, hother1, hnd1, _, _⟩ := projectLicenseBlock_ok l fs fs1 false c1 h1
      have hpl : p ≠ "LICENSE".toList := by
        intro e
        rw [e] at hsel
        exact absurd hsel (by decide)
      cases h2 : sourceFilesBlock l fs1 c1 with
      | mk fs2 r2 =>
        obtain ⟨e2, c2⟩ := r2
        rw [h2] at hok
        cases e2 with
        | some e => simp at hok
        | none =>
          simp only at hok ⊢
          have hres := sourceFilesBlock_ok l fs1 fs2 c1 c2 hH hl (hnd1 hnd)
            (fun x => by rw [hf1]; exact hwalk x) h2 p X
            (by rw [hother1 p hpl]; exact hp) hsel (by rw [hf1]; exact hw)
          cases c2 <;> exact hres

/-- What a run of `updateFiles` that returns nil has done to the file LICENSE. -/
theorem updateFiles_ok_license (l : License) (fs : FS) (hl : l.sourceFiles = [])
    (hok : (updateFiles l fs).2 = none) :
    (l.projectLicense ≠ [] → fs.faults.writeString "LICENSE".toList = false →
      (updateFiles l fs).1.node "LICENSE".toList = some (Node.file l.projectLicense)) ∧
    (l.projectLicense = [] →
      (updateFiles l fs).1.node "LICENSE".toList = fs.node "LICENSE".toList) := by
  unfold updateFiles at hok ⊢
  cases h1 : projectLicenseBlock l fs false with
  | mk fs1 r1 =>
    obtain ⟨e1, c1⟩ := r1
    rw [h1] at hok
    cases e1 with
    | some e => simp at hok
    | none =>
      simp only at hok ⊢
      obtain ⟨_, _, _, hlic, hsame⟩ := projectLicenseBlock_ok l fs fs1 false c1 h1
      have hkeep := sourceFilesBlock_node_other l fs1 c1 "LICENSE".toList
        (by rw [hl]; exact List.not_mem_nil _) (by decide)
      cases h2 : sourceFilesBlock l fs1 c1 with
      | mk fs2 r2 =>
        obtain ⟨e2, c2⟩ := r2
        rw [h2] at hok hkeep
        simp only at hkeep
        cases e2 with
        | some e => simp at hok
        | none =>
          simp only at hok ⊢
          constructor
          · intro hne hw
            cases c2 <;> simp only [Bool.not_true, Bool.not_false, if_true, if_false,
              Bool.false_eq_true] <;> rw [hkeep] <;> exact hlic hne hw
          · intro h0
            cases c2 <;> simp only [Bool.not_true, Bool.not_false, if_true, if_false,
              Bool.false_eq_true] <;> rw [hkeep, hsame h0]

/-! ## The command -/

/-- A run of the command that returns nil, with a project-license path whose file reads
as `c`, is a run of `updateFiles` on the same tree with `c` as project license. -/
theorem runE_ok (pfile sfile : Path) (fs : FS) (c : GoString) (hgiven : pfile ≠ [])
    (hread : (ioutilReadFile fs pfile).2 = Except.ok c)
    (hok : (runE pfile sfile fs).2 = none) :
    ∃ (lic : License) (fs2 : FS), runE pfile sfile fs = updateFiles lic fs2 ∧
      lic.projectLicense = c ∧ lic.sourceFiles = [] ∧
      (∀ q, fs2.node q = fs.node q) ∧ fs2.faults = fs.faults := by
  have hlen : pfile.length ≠ 0 := fun h0 => hgiven (List.length_eq_zero.mp h0)
  have hr1 : ioutilReadFile fs pfile = (fs.log (Op.readFile pfile), Except.ok c) := by
    rw [← ioutilReadFile_fst, ← hread]
  simp only [runE, if_pos hlen, hr1] at hok ⊢
  by_cases hs : sfile.length ≠ 0
  · simp only [if_pos hs] at hok ⊢
    have hfst := ioutilReadFile_fst (fs.log (Op.readFile pfile)) sfile
    cases hr2 : ioutilReadFile (fs.log (Op.readFile pfile)) sfile with
    | mk fs2 res =>
      rw [hr2] at hok hfst
      simp only at hfst
      cases res with
      | error e => simp at hok
      | ok sl =>
        simp only at hok ⊢
        refine ⟨_, fs2, rfl, rfl, rfl, ?_, ?_⟩
        · intro q
          rw [hfst]
          rfl
        · rw [hfst]
          rfl
  · simp only [if_neg hs] at hok ⊢
    exact ⟨_, _, rfl, rfl, rfl, fun _ => rfl, rfl⟩

/-! ## The claims about the license command -/

/-- C1. When both license texts are empty, `updateFiles` returns the error 'No project
or source code license files provided - no changes made' and the filesystem, the trace
of operations included, is exactly as before: nothing is created, truncated, read or
rewritten. The same holds for the command run with neither flag. -/
theorem updateFiles_without_license (l : License) (fs : FS)
    (hp : l.projectLicense = []) (hs : l.sourceFileLicense = []) :
    updateFiles l fs = (fs, some (GoError.new
      "No project or source code license files provided - no changes made".toList)) ∧
    runE [] [] fs = (fs, some (GoError.new
      "No project or source code license files provided - no changes made".toList)) := by
  constructor
  · simp [updateFiles, projectLicenseBlock, sourceFilesBlock, hp, hs, errNoLicense]
  · simp [runE, updateFiles, projectLicenseBlock, sourceFilesBlock, errNoLicense]

/-- C1, on the sample tree. -/
theorem updateFiles_without_license_witness :
    updateFiles noLicense sampleFS = (sampleFS, some (GoError.new
      "No project or source code license files provided - no changes made".toList)) :=
  (updateFiles_without_license noLicense sampleFS rfl rfl).1

/-- C2. At a file whose header is closed and followed by one line of 65536 bytes, the
claimed result is a newline followed by that line, and `stripLicense` returns the empty
string: the scanner stops at the long line and its error is never looked at. -/
theorem stripLicense_long_line_lost :
    existingLic <+: longLineFile ∧
    "*/".toList ∈ textLines longLineFile ∧
    joinWithLeadingNewline (afterClosing (textLines longLineFile))
      = '\n' :: List.replicate maxScanTokenSize 'x' ∧
    scanTooLong longLineFile = true ∧
    stripLicense longLineFile = ([], none) := by
  have hmax : maxScanTokenSize = 65535 + 1 := by decide
  have hs : splitLines (List.replicate maxScanTokenSize 'x')
      = [List.replicate maxScanTokenSize 'x'] := by
    rw [hmax]
    exact splitLines_replicate 65535 'x' (by decide)
  have hcr : dropCR (List.replicate maxScanTokenSize 'x')
      = List.replicate maxScanTokenSize 'x' :=
    dropCR_of_last_ne _ (getLast?_replicate_ne _ 'x' '\r' (by decide))
  have hlen : maxScanTokenSize ≤ (List.replicate maxScanTokenSize 'x').length := by
    rw [List.length_replicate]
  have hp : existingLic <+: longLineFile :=
    ⟨" 2021\n*/\n".toList ++ List.replicate maxScanTokenSize 'x', rfl⟩
  have ht := textLines_with_long_line _ hs hcr
  have hsc := scanLines_with_long_line _ hs hlen
  refine ⟨hp, ?_, ?_, ?_, ?_⟩
  · unfold longLineFile
    rw [ht]
    simp
  · unfold longLineFile
    rw [ht, afterClosing_append_closing _ _ (by decide)]
    simp [joinWithLeadingNewline]
  · unfold scanTooLong longLineFile
    rw [splitLines_append sampleHeader _ (by decide), hs, List.any_append]
    simp [hlen]
  · rw [stripLicense_of_marker _ hp]
    unfold longLineFile
    rw [hsc]
    decide

/-- C3, as amended. `stripLicense` returns its argument unchanged exactly when the
argument does not begin with the marker; the loop body of `updateFiles` then writes the
header followed by the content, nothing in between, and that is what a selected file
holds after a run that returns nil (distinct paths, no error in the walk, the write not
failing); and a header that neither begins with the marker nor is an initial piece of
it is not stripped again, whatever follows. -/
theorem stripLicense_detection_by_marker :
    (∀ c : GoString, stripLicense c = (c, none) ↔ ¬ existingLic <+: c) ∧
    (∀ (l : License) (fs : FS) (p : Path) (c : GoString), ¬ existingLic <+: c →
      fs.node p = some (Node.file c) →
      fs.faults.readFile p = false → fs.faults.openFile p = false →
      (rewriteSourceFile l fs p).2 = none ∧
      (rewriteSourceFile l fs p).1.trace
        = fs.trace ++ [Op.readFile p, Op.openTrunc p,
            Op.writeString p (l.sourceFileLicense ++ c)] ∧
      (fs.faults.writeString p = false →
        (rewriteSourceFile l fs p).1.node p
          = some (Node.file (l.sourceFileLicense ++ c)))) ∧
    (∀ (l : License) (fs : FS) (p : Path) (c : GoString), ¬ existingLic <+: c →
      l.sourceFileLicense ≠ [] → l.sourceFiles = [] →
      (fs.tree.map Prod.fst).Nodup → (∀ x, fs.faults.lstat x = false) →
      fs.node p = some (Node.file c) → nameSelected (baseName p) = true →
      fs.faults.writeString p = false → (updateFiles l fs).2 = none →
      (updateFiles l fs).1.node p = some (Node.file (l.sourceFileLicense ++ c))) ∧
    (∀ h c : GoString, ¬ existingLic <+: h → ¬ h <+: existingLic →
      stripLicense (h ++ c) = (h ++ c, none)) := by
  refine ⟨?_, ?_, ?_, ?_⟩
  · intro c
    constructor
    · intro h hp
      rw [stripLicense_of_marker c hp] at h
      exact join_ne_of_marker _ c hp (Prod.mk.inj h).1
    · exact stripLicense_of_no_marker c
  · intro l fs p c hc hn hr ho
    have h := rewriteSourceFile_of_file l fs p c hn hr ho
    rw [stripLicense_of_no_marker c hc] at h
    exact h
  · intro l fs p c hc hH hl hnd hwalk hn hsel hw hok
    have h := updateFiles_ok_source l fs hH hl hnd hwalk hok p c hn hsel hw
    rw [stripLicense_of_no_marker c hc] at h
    exact h
  · intro h c hh hh2
    apply stripLicense_of_no_marker
    intro hp
    rcases List.prefix_or_prefix_of_prefix hp (List.prefix_append h c) with h1 | h1
    · exact hh h1
    · exact hh2 h1

/-- C3 as amended, at a line-comment header and the headerless file `cmd/main.go` of the
sample tree. -/
theorem stripLicense_detection_by_marker_witness :
    stripLicense "package main\n".toList = ("package main\n".toList, none) ∧
    (updateFiles headerOnly sampleFS).1.node "cmd/main.go".toList
      = some (Node.file ("// Licensed\n".toList ++ "package main\n".toList)) ∧
    stripLicense ("// Licensed\n".toList ++ "package main\n".toList)
      = ("// Licensed\n".toList ++ "package main\n".toList, none) :=
  ⟨(stripLicense_detection_by_marker.1 _).2 (by decide),
   stripLicense_detection_by_marker.2.2.1 headerOnly sampleFS "cmd/main.go".toList
     "package main\n".toList (by decide) (by decide) rfl (by decide) (fun _ => rfl)
     (by decide) (by decide) rfl (by decide),
   stripLicense_detection_by_marker.2.2.2 _ _ (by decide) (by decide)⟩

/-- C3, counterexample. The header is the first line of the marker alone, so it does not
begin with the marker, and the file it is put on does not either; the two together do,
and a later run strips the header with the first lines of the file. -/
theorem short_header_is_stripped :
    ¬ existingLic <+: "/*\n".toList ∧
    ¬ existingLic <+: "Copyright 2021\n*/\npackage a\n".toList ∧
    stripLicense ("/*\n".toList ++ "Copyright 2021\n*/\npackage a\n".toList)
      = ("\npackage a".toList, none) ∧
    stripLicense ("/*\n".toList ++ "Copyright 2021\n*/\npackage a\n".toList)
      ≠ ("/*\n".toList ++ "Copyright 2021\n*/\npackage a\n".toList, none) := by
  decide

/-- C4. The function passed to the walk adds the path of an entry it is given without
error exactly when the entry's name is longer than 4 bytes and its last three bytes are
the extension with its dot; a name of 4 bytes or fewer is never added; two names of the
same length with the same last three bytes are treated alike; the argument `fileExt`
plays no part; and over a walk that meets no error the paths found, starting from none,
are exactly the visited paths whose name passes that test. -/
theorem getSourceFiles_selection :
    (∀ (l : License) (path : Path) (n : GoString),
      (walkFn l path n false).2 = none ∧
      ((walkFn l path n false).1.sourceFiles = l.sourceFiles ++ [path] ↔
        (4 < n.length ∧ lastThree n = ".go".toList)) ∧
      (¬ (4 < n.length ∧ lastThree n = ".go".toList) → (walkFn l path n false).1 = l)) ∧
    (∀ (l : License) (path : Path) (n : GoString), n.length ≤ 4 →
      (walkFn l path n false).1 = l) ∧
    (∀ (l : License) (path : Path) (n m : GoString), n.length = m.length →
      lastThree n = lastThree m → walkFn l path n false = walkFn l path m false) ∧
    (∀ (l : License) (fs : FS) (e1 e2 : GoString),
      getSourceFiles l e1 fs = getSourceFiles l e2 fs) ∧
    (∀ (fs : FS) (fileExt : GoString) (p : Path), (∀ x, fs.faults.lstat x = false) →
      (p ∈ (getSourceFiles noLicense fileExt fs).1.sourceFiles ↔
        p ∈ (walkCalls fs).map Prod.fst ∧
          4 < (baseName p).length ∧ lastThree (baseName p) = ".go".toList)) := by
  have hsel : ∀ n : GoString, nameSelected n = true ↔
      (4 < n.length ∧ lastThree n = ".go".toList) := by
    intro n
    simp [nameSelected]
  refine ⟨?_, ?_, ?_, ?_, ?_⟩
  · intro l path n
    rw [walkFn_no_err]
    refine ⟨rfl, ?_, ?_⟩
    · by_cases h : nameSelected n = true
      · simp only [h, if_true, true_iff]
        exact (hsel n).1 h
      · simp only [h, if_false]
        constructor
        · intro he
          have := congrArg List.length he
          simp at this
        · intro hc
          exact absurd ((hsel n).2 hc) h
    · intro hc
      have h : ¬ nameSelected n = true := fun h => hc ((hsel n).1 h)
      rw [if_neg h]
  · intro l path n hn
    rw [walkFn_no_err]
    have h : ¬ nameSelected n = true := fun h => by
      have := ((hsel n).1 h).1
      omega
    rw [if_neg h]
  · intro l path n m hlen hlast
    rw [walkFn_no_err, walkFn_no_err]
    have : nameSelected n = nameSelected m := by
      simp only [nameSelected, hlen, hlast]
    rw [this]
  · intro l fs e1 e2
    rfl
  · intro fs fileExt p hwalk
    simp only [getSourceFiles]
    rw [walkLoop_no_err _ _ (walkCalls_no_err fs hwalk)]
    simp only [noLicense, List.nil_append, List.mem_filter]
    rw [hsel]

/-- C4, on the sample tree: `cmd/main.go` is found and `a.go` is not. -/
theorem getSourceFiles_selection_witness :
    "cmd/main.go".toList ∈ (getSourceFiles noLicense sourceFileExt sampleFS).1.sourceFiles ∧
    ¬ "a.go".toList ∈ (getSourceFiles noLicense sourceFileExt sampleFS).1.sourceFiles :=
  ⟨(getSourceFiles_selection.2.2.2.2 sampleFS sourceFileExt _ (fun _ => rfl)).2 (by decide),
   fun h => absurd
    ((getSourceFiles_selection.2.2.2.2 sampleFS sourceFileExt _ (fun _ => rfl)).1 h).2.1
    (by decide)⟩

/-- C5, as amended. For a non-empty header and a tree with distinct paths that holds two
files whose names the walk selects (longer than 4 bytes, ending in the extension with
its dot), the first not beginning with the marker and the second beginning with it:
after a run of `updateFiles` that returns nil, in which the walk met no error and the
writes to the two files did not fail, the first file holds the header followed by its
old content and the second the header followed by its stripped content. -/
theorem updateFiles_rewrites_selected_files (l : License) (fs : FS) (p q : Path)
    (A B : GoString)
    (hH : l.sourceFileLicense ≠ []) (hl : l.sourceFiles = [])
    (hnd : (fs.tree.map Prod.fst).Nodup) (hwalk : ∀ x, fs.faults.lstat x = false)
    (hp : fs.node p = some (Node.file A)) (hq : fs.node q = some (Node.file B))
    (hsp : nameSelected (baseName p) = true) (hsq : nameSelected (baseName q) = true)
    (hA : ¬ existingLic <+: A) (_hB : existingLic <+: B)
    (hwp : fs.faults.writeString p = false) (hwq : fs.faults.writeString q = false)
    (hok : (updateFiles l fs).2 = none) :
    (updateFiles l fs).1.node p = some (Node.file (l.sourceFileLicense ++ A)) ∧
    (updateFiles l fs).1.node q
      = some (Node.file (l.sourceFileLicense ++ (stripLicense B).1)) := by
  constructor
  · have h := updateFiles_ok_source l fs hH hl hnd hwalk hok p A hp hsp hwp
    rw [stripLicense_of_no_marker A hA] at h
    exact h
  · exact updateFiles_ok_source l fs hH hl hnd hwalk hok q B hq hsq hwq

/-- C5 as amended, on the sample tree, for `cmd/main.go` and `cmd/root.go`. -/
theorem updateFiles_rewrites_selected_files_witness :
    (updateFiles headerOnly sampleFS).1.node "cmd/main.go".toList
      = some (Node.file ("// Licensed\n".toList ++ "package main\n".toList)) ∧
    (updateFiles headerOnly sampleFS).1.node "cmd/root.go".toList
      = some (Node.file ("// Licensed\n".toList ++
          (stripLicense "/*\nCopyright 2021\n*/\npackage main\n".toList).1)) :=
  updateFiles_rewrites_selected_files headerOnly sampleFS
    "cmd/main.go".toList "cmd/root.go".toList
    "package main\n".toList "/*\nCopyright 2021\n*/\npackage main\n".toList
    (by decide) rfl (by decide) (fun _ => rfl) (by decide) (by decide) (by decide)
    (by decide) (by decide) (by decide) rfl rfl (by decide)

/-- C5, counterexample. In the sample tree `a.go` has no header and `b.go` has one; the
run with a header returns nil and both files are as they were, since a name of four
bytes is not selected. -/
theorem four_byte_names_not_rewritten :
    (updateFiles headerOnly sampleFS).2 = none ∧
    sampleFS.node "a.go".toList = some (Node.file "package a\n".toList) ∧
    ¬ existingLic <+: "package a\n".toList ∧
    sampleFS.node "b.go".toList
      = some (Node.file "/*\nCopyright 2021\n*/\npackage b\n".toList) ∧
    existingLic <+: "/*\nCopyright 2021\n*/\npackage b\n".toList ∧
    (updateFiles headerOnly sampleFS).1.node "a.go".toList
      = some (Node.file "package a\n".toList) ∧
    (updateFiles headerOnly sampleFS).1.node "a.go".toList
      ≠ some (Node.file ("// Licensed\n".toList ++ "package a\n".toList)) ∧
    (updateFiles headerOnly sampleFS).1.node "b.go".toList
      ≠ some (Node.file ("// Licensed\n".toList ++
          (stripLicense "/*\nCopyright 2021\n*/\npackage b\n".toList).1)) := by
  decide

/-- C6, as amended. For a header that begins with the marker, ends with a newline and
has the closing token on its last line only, and for every body, when no line of the
file reaches the scanner's limit: stripping the file and putting the same header back
gives the header followed by each line of the body behind a newline. So, for a body with
no line ending in a carriage return, the result is the header alone when the body is
empty, and otherwise the header, one newline, and the body without its one final
newline; that is the header, one newline and the body when the body is not empty and
does not end with a newline. -/
theorem strip_then_prepend_same_header (h b : GoString) (pre : List GoString)
    (hmark : existingLic <+: h) (hnl : h.getLast? = some '\n')
    (hlines : textLines h = pre ++ ["*/".toList]) (hpre : "*/".toList ∉ pre)
    (hlim : ∀ l ∈ splitLines (h ++ b), l.length < maxScanTokenSize) :
    h ++ (stripLicense (h ++ b)).1 = h ++ joinWithLeadingNewline (textLines b) ∧
    ((∀ l ∈ splitLines b, l.getLast? ≠ some '\r') →
      (b = [] → h ++ (stripLicense (h ++ b)).1 = h) ∧
      (b ≠ [] →
        h ++ (stripLicense (h ++ b)).1 = h ++ "\n".toList ++ dropFinalNewline b) ∧
      (b ≠ [] → b.getLast? ≠ some '\n' →
        h ++ (stripLicense (h ++ b)).1 = h ++ "\n".toList ++ b)) := by
  have hp : existingLic <+: h ++ b := hmark.trans (List.prefix_append h b)
  have ht : textLines (h ++ b) = pre ++ "*/".toList :: textLines b := by
    unfold textLines at hlines ⊢
    rw [splitLines_append h b hnl, List.map_append, hlines]
    simp
  have hmain : h ++ (stripLicense (h ++ b)).1
      = h ++ joinWithLeadingNewline (textLines b) := by
    rw [stripLicense_within_limit _ hp hlim, ht, afterClosing_append_closing _ _ hpre]
  refine ⟨hmain, ?_⟩
  intro hbcr
  have hlinesb : textLines b = splitLines b := map_dropCR_of_last_ne _ hbcr
  rw [hmain, hlinesb]
  refine ⟨?_, ?_, ?_⟩
  · intro hb
    subst hb
    simp [splitLines, joinWithLeadingNewline]
  · intro hb
    rw [join_splitLines_all b hb]
    simp
  · intro hb hbnl
    rw [join_splitLines_all b hb, dropFinalNewline_of_last_ne b hbnl]
    simp

/-- C6 as amended, at the sample header: a body of one line with its newline, and the
empty body. -/
theorem strip_then_prepend_same_header_witness :
    sampleHeader ++ (stripLicense (sampleHeader ++ "package a\n".toList)).1
      = sampleHeader ++ "\n".toList ++ "package a".toList ∧
    sampleHeader ++ (stripLicense (sampleHeader ++ [])).1 = sampleHeader :=
  ⟨((strip_then_prepend_same_header sampleHeader "package a\n".toList
      ["/*".toList, "Copyright 2021".toList]
      (by decide) (by decide) (by decide) (by decide) (by decide)).2 (by decide)).2.1
      (by decide),
   ((strip_then_prepend_same_header sampleHeader []
      ["/*".toList, "Copyright 2021".toList]
      (by decide) (by decide) (by decide) (by decide) (by decide)).2 (by decide)).1 rfl⟩

/-- C6, counterexample. The header meets every condition of the claim and the body is
one ordinary line with its newline; the result lacks that final newline, so it is not
the header, a newline and the body. -/
theorem round_trip_loses_final_newline :
    existingLic <+: sampleHeader ∧ sampleHeader.getLast? = some '\n' ∧
    textLines sampleHeader = ["/*".toList, "Copyright 2021".toList] ++ ["*/".toList] ∧
    "*/".toList ∉ ["/*".toList, "Copyright 2021".toList] ∧
    sampleHeader ++ (stripLicense (sampleHeader ++ "package a\n".toList)).1
      = sampleHeader ++ "\npackage a".toList ∧
    sampleHeader ++ (stripLicense (sampleHeader ++ "package a\n".toList)).1
      ≠ sampleHeader ++ "\n".toList ++ "package a\n".toList := by
  decide

/-- C7. On a full disk, with both license texts given, `os.Create` and `os.OpenFile`
succeed and every `WriteString` fails; `updateFiles` returns nil all the same, and
leaves LICENSE and the rewritten source files empty. -/
theorem updateFiles_nil_after_failed_writes :
    fullDiskFS.faults.writeString "LICENSE".toList = true ∧
    fullDiskFS.faults.writeString "cmd/main.go".toList = true ∧
    (updateFiles bothLicenses fullDiskFS).2 = none ∧
    (updateFiles bothLicenses fullDiskFS).1.node "LICENSE".toList = some (Node.file []) ∧
    (updateFiles bothLicenses fullDiskFS).1.node "cmd/main.go".toList
      = some (Node.file []) := by
  decide

/-- C8, as amended. When a project-license path is given, its file reads as `c`, and the
run returns nil: if `c` is not empty and the write to LICENSE did not fail, LICENSE
exists afterwards and holds exactly `c`; if `c` is empty, LICENSE is what it was before,
absent or not. -/
theorem runE_writes_project_license (pfile sfile : Path) (fs : FS) (c : GoString)
    (hgiven : pfile ≠ []) (hread : (ioutilReadFile fs pfile).2 = Except.ok c)
    (hok : (runE pfile sfile fs).2 = none) :
    (c ≠ [] → fs.faults.writeString "LICENSE".toList = false →
      (runE pfile sfile fs).1.node "LICENSE".toList = some (Node.file c)) ∧
    (c = [] → (runE pfile sfile fs).1.node "LICENSE".toList = fs.node "LICENSE".toList) := by
  obtain ⟨lic, fs2, hrun, hc, hl, hnode, hfaults⟩ := runE_ok pfile sfile fs c hgiven hread hok
  rw [hrun] at hok ⊢
  have h := updateFiles_ok_license lic fs2 hl hok
  rw [hc, hfaults, hnode] at h
  exact h

/-- C8 as amended, on the sample tree, with and without a source header. -/
theorem runE_writes_project_license_witness :
    (runE "mit.txt".toList "hdr.txt".toList sampleFS).1.node "LICENSE".toList
      = some (Node.file "MIT License\n".toList) ∧
    (runE "mit.txt".toList [] sampleFS).1.node "LICENSE".toList
      = some (Node.file "MIT License\n".toList) :=
  ⟨(runE_writes_project_license "mit.txt".toList "hdr.txt".toList sampleFS
      "MIT License\n".toList (by decide) rfl (by decide)).1 (by decide) rfl,
   (runE_writes_project_license "mit.txt".toList [] sampleFS
      "MIT License\n".toList (by decide) rfl (by decide)).1 (by decide) rfl⟩

/-- C8, counterexample. The project-license path names an empty file and a source header
is given as well: the run returns nil and there is no file LICENSE afterwards. -/
theorem empty_project_license_not_written :
    sampleFS.node "empty.txt".toList = some (Node.file []) ∧
    (runE "empty.txt".toList "hdr.txt".toList sampleFS).2 = none ∧
    (runE "empty.txt".toList "hdr.txt".toList sampleFS).1.node "LICENSE".toList = none := by
  decide

/-- C9. A text that begins with the marker and has no line equal to the closing token
is stripped to the empty string with no error; so the loop body of `updateFiles` writes
the header text alone over a file with that content, and after a run of `updateFiles`
that returns nil (distinct paths, no error in the walk, the write not failing) a
selected file with that content holds the header alone: its original body is lost. -/
theorem stripLicense_without_closing_line (c : GoString) (hp : existingLic <+: c)
    (hno : "*/".toList ∉ textLines c) :
    stripLicense c = ([], none) ∧
    (∀ (l : License) (fs : FS) (p : Path), fs.node p = some (Node.file c) →
      fs.faults.readFile p = false → fs.faults.openFile p = false →
      (rewriteSourceFile l fs p).2 = none ∧
      (rewriteSourceFile l fs p).1.trace
        = fs.trace ++ [Op.readFile p, Op.openTrunc p, Op.writeString p l.sourceFileLicense] ∧
      (fs.faults.writeString p = false →
        (rewriteSourceFile l fs p).1.node p = some (Node.file l.sourceFileLicense))) ∧
    (∀ (l : License) (fs : FS) (p : Path), l.sourceFileLicense ≠ [] → l.sourceFiles = [] →
      (fs.tree.map Prod.fst).Nodup → (∀ x, fs.faults.lstat x = false) →
      fs.node p = some (Node.file c) → nameSelected (baseName p) = true →
      fs.faults.writeString p = false → (updateFiles l fs).2 = none →
      (updateFiles l fs).1.node p = some (Node.file l.sourceFileLicense)) := by
  have hs : stripLicense c = ([], none) := by
    rw [stripLicense_of_marker c hp,
      afterClosing_of_not_mem _ (fun hm => hno (mem_scanLines c _ hm))]
    rfl
  refine ⟨hs, ?_, ?_⟩
  · intro l fs p hn hr ho
    have h := rewriteSourceFile_of_file l fs p c hn hr ho
    rw [hs] at h
    simpa using h
  · intro l fs p hH hl hnd hwalk hn hsel hw hok
    have h := updateFiles_ok_source l fs hH hl hnd hwalk hok p c hn hsel hw
    rw [hs] at h
    simpa using h

/-- C9, at the file of the sample tree whose closing token is indented. -/
theorem stripLicense_without_closing_line_witness :
    stripLicense "/*\nCopyright 2021\n */\npackage main\n".toList = ([], none) ∧
    (updateFiles headerOnly sampleFS).1.node "cmd/open.go".toList
      = some (Node.file "// Licensed\n".toList) :=
  ⟨(stripLicense_without_closing_line "/*\nCopyright 2021\n */\npackage main\n".toList
      (by decide) (by decide)).1,
   (stripLicense_without_closing_line "/*\nCopyright 2021\n */\npackage main\n".toList
      (by decide) (by decide)).2.2 headerOnly sampleFS "cmd/open.go".toList
      (by decide) rfl (by decide) (fun _ => rfl) (by decide) (by decide) rfl (by decide)⟩

/-! ## The suite-test scaffold -/

/-- C10. For every SuiteTest whose Path is empty before the call, SetTemplateDefaults
returns no error and sets IfExistsAction to overwrite; when MultiGroup is set and the
resource group is non-empty, Path becomes controllers/GROUP/suite_test.go and
CRDDirectoryRelativePath is the two-level value; in every other case Path becomes
controllers/suite_test.go and CRDDirectoryRelativePath is the one-level value. -/
theorem setTemplateDefaults_path_and_crd_depth (lib : Library) (f : SuiteTest)
    (hPath : f.Path = []) :
    (SuiteTest.SetTemplateDefaults lib f).2 = none ∧
    (SuiteTest.SetTemplateDefaults lib f).1.IfExistsAction = IfExistsAction.OverwriteFile ∧
    ((f.MultiGroup = true ∧ f.Resource.Group ≠ []) →
      (SuiteTest.SetTemplateDefaults lib f).1.Path
          = "controllers/".toList ++ f.Resource.Group ++ "/suite_test.go".toList ∧
      (SuiteTest.SetTemplateDefaults lib f).1.CRDDirectoryRelativePath
          = "\"..\", \"..\"".toList) ∧
    (¬ (f.MultiGroup = true ∧ f.Resource.Group ≠ []) →
      (SuiteTest.SetTemplateDefaults lib f).1.Path = "controllers/suite_test.go".toList ∧
      (SuiteTest.SetTemplateDefaults lib f).1.CRDDirectoryRelativePath
          = "\"..\"".toList) := by
  obtain ⟨path, body, act, mg, bp, ⟨g, d, v, k, p⟩, crd, force⟩ := f
  simp only at hPath
  subst hPath
  cases mg <;> cases g
  · exact ⟨rfl, rfl, fun h => by simp at h, fun _ => ⟨rfl, rfl⟩⟩
  · exact ⟨rfl, rfl, fun h => by simp at h, fun _ => ⟨rfl, rfl⟩⟩
  · exact ⟨rfl, rfl, fun h => by simp at h, fun _ => ⟨rfl, rfl⟩⟩
  · exact ⟨rfl, rfl, fun _ => ⟨rfl, rfl⟩, fun h => by simp at h⟩

/-- C10, for a multi-group scaffold of group `apps`. -/
theorem setTemplateDefaults_path_and_crd_depth_witness :
    (SuiteTest.SetTemplateDefaults sampleLibrary sampleSuiteTest).1.Path
      = "controllers/apps/suite_test.go".toList ∧
    (SuiteTest.SetTemplateDefaults sampleLibrary sampleSuiteTest).1.CRDDirectoryRelativePath
      = "\"..\", \"..\"".toList :=
  (setTemplateDefaults_path_and_crd_depth sampleLibrary sampleSuiteTest rfl).2.2.1
    ⟨rfl, by decide⟩

end OperatorBuilder
